import Mathlib

/-!
# A verification development for the types-echo type-utility library

The library (src/index.d.ts together with the module declaration in
src/unnamed/part_001) is a collection of TypeScript type aliases:
nullability wrappers, deep mapped-type transforms, tuple/union helpers and
a numeric-range builder.  This file gives a shallow embedding of the
fragment of TypeScript's type language those aliases operate on, embeds
each alias needed by the claims directly from its source text, and proves
(or refutes) the claims about them.

Modelling conventions:
* Types are the inductive `Ty` below: primitives, numeric/string literal
  types, function types, array types, unions (kept as a flat list of
  members) and object types (a list of named fields carrying the
  `?`-optional and `readonly` modifiers).
* `Ty.errT` stands for the checker's error type, produced by an indexed
  access `U[K]` whose key is not known to be in `keyof U` (the checker
  reports the error and continues with an `any`-like error type).
* TypeScript never keeps `never` as a union member; `mkUnion` performs
  that normalisation exactly as the checker does when it builds a union.
  Unions are not deduplicated here (no claim depends on deduplication of
  equal members).
* Homomorphic mapped types (the `Deep*` transforms, whose key set is
  `keyof T`) follow the checker's special cases: primitives and literal
  types pass through unchanged, unions are mapped memberwise, array types
  are mapped on their element, and any other object-like type without
  string-keyed properties (a bare function type, whose `keyof` is `never`)
  collapses to the empty object type.
-/

namespace TE

mutual

inductive Ty : Type where
  | str : Ty
  | num : Ty
  | boolT : Ty
  | nullT : Ty
  | undefT : Ty
  | voidT : Ty
  | neverT : Ty
  | errT : Ty
  | numLit : Int → Ty
  | strLit : String → Ty
  | fn : Ty → Ty → Ty
  | arr : Ty → Ty
  | union : List Ty → Ty
  | obj : List Field → Ty

inductive Field : Type where
  | mk : String → Bool → Bool → Ty → Field

end

def Field.name : Field → String
  | .mk n _ _ _ => n

def Field.opt : Field → Bool
  | .mk _ o _ _ => o

def Field.ro : Field → Bool
  | .mk _ _ r _ => r

def Field.ty : Field → Ty
  | .mk _ _ _ t => t

/-- Is the type the `never` type? -/
def Ty.isNever : Ty → Bool
  | .neverT => true
  | _ => false

/-- Is the type an array type? -/
def Ty.isArr : Ty → Bool
  | .arr _ => true
  | _ => false

/-- Is the type the `undefined` type? -/
def Ty.isUndef : Ty → Bool
  | .undefT => true
  | _ => false

/-- The members of a type viewed as a union: a union type contributes its
non-`never` members (the checker never keeps `never` inside a union),
`never` is the empty union, and any other type is its own sole member. -/
def membersOf : Ty → List Ty
  | .union ms => ms.filter (fun m => !(Ty.isNever m))
  | .neverT => []
  | t => [t]

/-- Build a union from a list of members the way the checker does: `never`
members are dropped, the empty union is `never` and a singleton union is
the member itself. -/
def mkUnion (ms : List Ty) : Ty :=
  match ms.filter (fun m => !(Ty.isNever m)) with
  | [] => .neverT
  | [m] => m
  | ms' => .union ms'

/-- The binary union `A | B`, flattened. -/
def union2 (a b : Ty) : Ty :=
  mkUnion (membersOf a ++ membersOf b)

/-- Remove `undefined` from the members of a type: the checker's
`removeMissingOrUndefinedType`, applied under strict null checks when a
`-?` mapped-type modifier makes a formerly optional property required. -/
def removeUndef (t : Ty) : Ty :=
  mkUnion ((membersOf t).filter (fun m => !(Ty.isUndef m)))

/-- The `-?` modifier's effect on a property's value type: `undefined`
(even explicitly written) is stripped exactly when the original property
was optional; an already-required property keeps its value type. -/
def stripOptUndef (opt : Bool) (t : Ty) : Ty :=
  if opt then removeUndef t else t

theorem sizeOf_ty_lt_of_field_mem {f : Field} {fs : List Field}
    (h : f ∈ fs) : sizeOf (Field.ty f) < 1 + sizeOf fs := by
  have h1 := List.sizeOf_lt_of_mem h
  cases f with
  | mk n o r t => simp [Field.ty] at *; omega

theorem sizeOf_lt_of_union_mem {m : Ty} {ms : List Ty}
    (h : m ∈ ms) : sizeOf m < 1 + sizeOf ms := by
  have h1 := List.sizeOf_lt_of_mem h
  omega

/-!
## The `Deep*` homomorphic mapped transforms

Each definition below transcribes one alias of the form
`type DeepX<T> = { modifiers [P in keyof T]: template }` from the source.
The object case applies the alias's modifiers to each field and its value
template to each field type; the union, array and primitive cases are the
checker's homomorphic mapped-type special cases described in the header.
A bare function type has no string-keyed properties (`keyof` is `never`),
so a mapped type over it is the empty object type.
-/

/-- `DeepPartial<T> = { [P in keyof T]?: DeepPartial<T[P]> }`
(the `?` modifier makes every field optional; `readonly` is preserved). -/
def deepPartialT (t : Ty) : Ty :=
  match t with
  | .obj fs => .obj (fs.attach.map (fun x =>
      Field.mk x.1.name true x.1.ro (deepPartialT x.1.ty)))
  | .union ms => mkUnion (ms.attach.map (fun x => deepPartialT x.1))
  | .arr e => .arr (deepPartialT e)
  | .fn _ _ => .obj []
  | t => t
termination_by sizeOf t
decreasing_by
  all_goals simp_wf
  · exact sizeOf_ty_lt_of_field_mem x.2
  · exact sizeOf_lt_of_union_mem x.2

/-- `DeepReadonly<T> = { readonly [P in keyof T]: DeepReadonly<T[P]> }`
(every field becomes `readonly`; optionality is preserved). -/
def deepReadonly (t : Ty) : Ty :=
  match t with
  | .obj fs => .obj (fs.attach.map (fun x =>
      Field.mk x.1.name x.1.opt true (deepReadonly x.1.ty)))
  | .union ms => mkUnion (ms.attach.map (fun x => deepReadonly x.1))
  | .arr e => .arr (deepReadonly e)
  | .fn _ _ => .obj []
  | t => t
termination_by sizeOf t
decreasing_by
  all_goals simp_wf
  · exact sizeOf_ty_lt_of_field_mem x.2
  · exact sizeOf_lt_of_union_mem x.2

/-- `DeepRequired<T> = { [P in keyof T]-?: DeepRequired<T[P]> }`
(the `-?` modifier removes optionality and strips `undefined` from the
value type of a formerly optional property; `readonly` is preserved). -/
def deepRequired (t : Ty) : Ty :=
  match t with
  | .obj fs => .obj (fs.attach.map (fun x =>
      Field.mk x.1.name false x.1.ro (stripOptUndef x.1.opt (deepRequired x.1.ty))))
  | .union ms => mkUnion (ms.attach.map (fun x => deepRequired x.1))
  | .arr e => .arr (deepRequired e)
  | .fn _ _ => .obj []
  | t => t
termination_by sizeOf t
decreasing_by
  all_goals simp_wf
  · exact sizeOf_ty_lt_of_field_mem x.2
  · exact sizeOf_lt_of_union_mem x.2

/-- `DeepMutable<T> = { -readonly [P in keyof T]: DeepMutable<T[P]> }`
(the `-readonly` modifier removes `readonly`; optionality is preserved). -/
def deepMutable (t : Ty) : Ty :=
  match t with
  | .obj fs => .obj (fs.attach.map (fun x =>
      Field.mk x.1.name x.1.opt false (deepMutable x.1.ty)))
  | .union ms => mkUnion (ms.attach.map (fun x => deepMutable x.1))
  | .arr e => .arr (deepMutable e)
  | .fn _ _ => .obj []
  | t => t
termination_by sizeOf t
decreasing_by
  all_goals simp_wf
  · exact sizeOf_ty_lt_of_field_mem x.2
  · exact sizeOf_lt_of_union_mem x.2

/-- `DeepNonNullable<T> = { [P in keyof T]-?: DeepNonNullable<T[P]> }`
(transcribed from its own source text, which is identical to that of
`DeepRequired`: the value template does not apply `NonNullable`, and the
only value-type change is the `-?` stripping of `undefined` on formerly
optional properties). -/
def deepNonNullable (t : Ty) : Ty :=
  match t with
  | .obj fs => .obj (fs.attach.map (fun x =>
      Field.mk x.1.name false x.1.ro (stripOptUndef x.1.opt (deepNonNullable x.1.ty))))
  | .union ms => mkUnion (ms.attach.map (fun x => deepNonNullable x.1))
  | .arr e => .arr (deepNonNullable e)
  | .fn _ _ => .obj []
  | t => t
termination_by sizeOf t
decreasing_by
  all_goals simp_wf
  · exact sizeOf_ty_lt_of_field_mem x.2
  · exact sizeOf_lt_of_union_mem x.2

/-- `DeepNullable<T> = { [P in keyof T]: DeepNullable<T[P]> | null }`
(no modifier changes; the value template unions in `null`). -/
def deepNullable (t : Ty) : Ty :=
  match t with
  | .obj fs => .obj (fs.attach.map (fun x =>
      Field.mk x.1.name x.1.opt x.1.ro (union2 (deepNullable x.1.ty) .nullT)))
  | .union ms => mkUnion (ms.attach.map (fun x => deepNullable x.1))
  | .arr e => .arr (union2 (deepNullable e) .nullT)
  | .fn _ _ => .obj []
  | t => t
termination_by sizeOf t
decreasing_by
  all_goals simp_wf
  · exact sizeOf_ty_lt_of_field_mem x.2
  · exact sizeOf_lt_of_union_mem x.2

/-- `DeepMaybe<T> = { [P in keyof T]: DeepMaybe<T[P]> | undefined }`. -/
def deepMaybe (t : Ty) : Ty :=
  match t with
  | .obj fs => .obj (fs.attach.map (fun x =>
      Field.mk x.1.name x.1.opt x.1.ro (union2 (deepMaybe x.1.ty) .undefT)))
  | .union ms => mkUnion (ms.attach.map (fun x => deepMaybe x.1))
  | .arr e => .arr (union2 (deepMaybe e) .undefT)
  | .fn _ _ => .obj []
  | t => t
termination_by sizeOf t
decreasing_by
  all_goals simp_wf
  · exact sizeOf_ty_lt_of_field_mem x.2
  · exact sizeOf_lt_of_union_mem x.2

/-- `DeepVoidable<T> = { [P in keyof T]: DeepVoidable<T[P]> | void }`. -/
def deepVoidable (t : Ty) : Ty :=
  match t with
  | .obj fs => .obj (fs.attach.map (fun x =>
      Field.mk x.1.name x.1.opt x.1.ro (union2 (deepVoidable x.1.ty) .voidT)))
  | .union ms => mkUnion (ms.attach.map (fun x => deepVoidable x.1))
  | .arr e => .arr (union2 (deepVoidable e) .voidT)
  | .fn _ _ => .obj []
  | t => t
termination_by sizeOf t
decreasing_by
  all_goals simp_wf
  · exact sizeOf_ty_lt_of_field_mem x.2
  · exact sizeOf_lt_of_union_mem x.2

/-- All object properties reachable in a type are marked `readonly`:
this is the read-only-access predicate of the spec sentence behind C1.
It inspects every field of every object type at every nesting depth,
including objects nested under unions, arrays and function types. -/
def allRO (t : Ty) : Bool :=
  match t with
  | .obj fs => fs.attach.all (fun x => x.1.ro && allRO x.1.ty)
  | .union ms => ms.attach.all (fun x => allRO x.1)
  | .arr e => allRO e
  | .fn d c => allRO d && allRO c
  | _ => true
termination_by sizeOf t
decreasing_by
  all_goals simp_wf
  · exact sizeOf_ty_lt_of_field_mem x.2
  · exact sizeOf_lt_of_union_mem x.2
  all_goals omega

/-- `keyof` of an object type, as the list of its property names; every
non-object type in the model contributes no string-keyed properties. -/
def keysOf : Ty → List String
  | .obj fs => fs.map Field.name
  | _ => []

theorem attach_map_eq {α β : Type} (l : List α) (f : α → β) :
    (l.attach.map (fun x => f x.1)) = l.map f :=
  List.attach_map_val l f

theorem attach_all_eq {α : Type} (l : List α) (p : α → Bool) :
    (l.attach.all (fun x => p x.1)) = l.all p := by
  rw [Bool.eq_iff_iff]
  simp only [List.all_eq_true, List.mem_attach, true_implies, Subtype.forall]

theorem deepPartialT_obj (fs : List Field) :
    deepPartialT (.obj fs)
      = .obj (fs.map (fun f => Field.mk f.name true f.ro (deepPartialT f.ty))) := by
  rw [deepPartialT]
  exact congrArg Ty.obj
    (attach_map_eq fs (fun f => Field.mk f.name true f.ro (deepPartialT f.ty)))

theorem deepPartialT_union (ms : List Ty) :
    deepPartialT (.union ms) = mkUnion (ms.map deepPartialT) := by
  rw [deepPartialT]
  exact congrArg mkUnion (attach_map_eq ms _)

theorem deepReadonly_obj (fs : List Field) :
    deepReadonly (.obj fs)
      = .obj (fs.map (fun f => Field.mk f.name f.opt true (deepReadonly f.ty))) := by
  rw [deepReadonly]
  exact congrArg Ty.obj
    (attach_map_eq fs (fun f => Field.mk f.name f.opt true (deepReadonly f.ty)))

theorem deepReadonly_union (ms : List Ty) :
    deepReadonly (.union ms) = mkUnion (ms.map deepReadonly) := by
  rw [deepReadonly]
  exact congrArg mkUnion (attach_map_eq ms _)

theorem deepRequired_obj (fs : List Field) :
    deepRequired (.obj fs)
      = .obj (fs.map (fun f =>
          Field.mk f.name false f.ro (stripOptUndef f.opt (deepRequired f.ty)))) := by
  rw [deepRequired]
  exact congrArg Ty.obj
    (attach_map_eq fs (fun f =>
      Field.mk f.name false f.ro (stripOptUndef f.opt (deepRequired f.ty))))

theorem deepRequired_union (ms : List Ty) :
    deepRequired (.union ms) = mkUnion (ms.map deepRequired) := by
  rw [deepRequired]
  exact congrArg mkUnion (attach_map_eq ms _)

theorem deepMutable_obj (fs : List Field) :
    deepMutable (.obj fs)
      = .obj (fs.map (fun f => Field.mk f.name f.opt false (deepMutable f.ty))) := by
  rw [deepMutable]
  exact congrArg Ty.obj
    (attach_map_eq fs (fun f => Field.mk f.name f.opt false (deepMutable f.ty)))

theorem deepMutable_union (ms : List Ty) :
    deepMutable (.union ms) = mkUnion (ms.map deepMutable) := by
  rw [deepMutable]
  exact congrArg mkUnion (attach_map_eq ms _)

theorem deepNonNullable_obj (fs : List Field) :
    deepNonNullable (.obj fs)
      = .obj (fs.map (fun f =>
          Field.mk f.name false f.ro (stripOptUndef f.opt (deepNonNullable f.ty)))) := by
  rw [deepNonNullable]
  exact congrArg Ty.obj
    (attach_map_eq fs (fun f =>
      Field.mk f.name false f.ro (stripOptUndef f.opt (deepNonNullable f.ty))))

theorem deepNonNullable_union (ms : List Ty) :
    deepNonNullable (.union ms) = mkUnion (ms.map deepNonNullable) := by
  rw [deepNonNullable]
  exact congrArg mkUnion (attach_map_eq ms _)

theorem deepNullable_obj (fs : List Field) :
    deepNullable (.obj fs)
      = .obj (fs.map (fun f =>
          Field.mk f.name f.opt f.ro (union2 (deepNullable f.ty) .nullT))) := by
  rw [deepNullable]
  exact congrArg Ty.obj
    (attach_map_eq fs
      (fun f => Field.mk f.name f.opt f.ro (union2 (deepNullable f.ty) .nullT)))

theorem deepNullable_union (ms : List Ty) :
    deepNullable (.union ms) = mkUnion (ms.map deepNullable) := by
  rw [deepNullable]
  exact congrArg mkUnion (attach_map_eq ms _)

theorem deepMaybe_obj (fs : List Field) :
    deepMaybe (.obj fs)
      = .obj (fs.map (fun f =>
          Field.mk f.name f.opt f.ro (union2 (deepMaybe f.ty) .undefT))) := by
  rw [deepMaybe]
  exact congrArg Ty.obj
    (attach_map_eq fs
      (fun f => Field.mk f.name f.opt f.ro (union2 (deepMaybe f.ty) .undefT)))

theorem deepMaybe_union (ms : List Ty) :
    deepMaybe (.union ms) = mkUnion (ms.map deepMaybe) := by
  rw [deepMaybe]
  exact congrArg mkUnion (attach_map_eq ms _)

theorem deepVoidable_obj (fs : List Field) :
    deepVoidable (.obj fs)
      = .obj (fs.map (fun f =>
          Field.mk f.name f.opt f.ro (union2 (deepVoidable f.ty) .voidT))) := by
  rw [deepVoidable]
  exact congrArg Ty.obj
    (attach_map_eq fs
      (fun f => Field.mk f.name f.opt f.ro (union2 (deepVoidable f.ty) .voidT)))

theorem deepVoidable_union (ms : List Ty) :
    deepVoidable (.union ms) = mkUnion (ms.map deepVoidable) := by
  rw [deepVoidable]
  exact congrArg mkUnion (attach_map_eq ms _)

theorem allRO_obj (fs : List Field) :
    allRO (.obj fs) = fs.all (fun f => f.ro && allRO f.ty) := by
  rw [allRO]
  exact attach_all_eq fs (fun f => f.ro && allRO f.ty)

theorem allRO_union (ms : List Ty) :
    allRO (.union ms) = ms.all allRO := by
  rw [allRO]
  exact attach_all_eq ms _

theorem allRO_mkUnion {L : List Ty} (h : ∀ x ∈ L, allRO x = true) :
    allRO (mkUnion L) = true := by
  rw [mkUnion]
  split
  · simp [allRO]
  · rename_i m heq
    have hm : m ∈ L.filter (fun x => !(Ty.isNever x)) := by
      rw [heq]; exact List.mem_singleton.2 rfl
    exact h m (List.mem_of_mem_filter hm)
  · rw [allRO_union, List.all_eq_true]
    intro x hx
    exact h x (List.mem_of_mem_filter hx)

theorem deepReadonly_allRO (t : Ty) : allRO (deepReadonly t) = true := by
  match t with
  | .obj fs =>
    rw [deepReadonly_obj, allRO_obj, List.all_map, List.all_eq_true]
    intro f hf
    cases f with
    | mk n o r ty =>
      have hrec : allRO (deepReadonly ty) = true := deepReadonly_allRO ty
      simp [Function.comp, Field.name, Field.opt, Field.ro, Field.ty, hrec]
  | .union ms =>
    rw [deepReadonly_union]
    apply allRO_mkUnion
    intro x hx
    obtain ⟨m, hm, rfl⟩ := List.mem_map.1 hx
    exact deepReadonly_allRO m
  | .arr e =>
    have hrec : allRO (deepReadonly e) = true := deepReadonly_allRO e
    simp [deepReadonly, allRO, hrec]
  | .fn d c => simp [deepReadonly, allRO]
  | .str => simp [deepReadonly, allRO]
  | .num => simp [deepReadonly, allRO]
  | .boolT => simp [deepReadonly, allRO]
  | .nullT => simp [deepReadonly, allRO]
  | .undefT => simp [deepReadonly, allRO]
  | .voidT => simp [deepReadonly, allRO]
  | .neverT => simp [deepReadonly, allRO]
  | .errT => simp [deepReadonly, allRO]
  | .numLit n => simp [deepReadonly, allRO]
  | .strLit s => simp [deepReadonly, allRO]
termination_by sizeOf t
decreasing_by
  all_goals simp_wf
  · exact sizeOf_ty_lt_of_field_mem hf
  · exact sizeOf_lt_of_union_mem hm

theorem deepNonNullable_eq_deepRequired (t : Ty) :
    deepNonNullable t = deepRequired t := by
  match t with
  | .obj fs =>
    rw [deepNonNullable_obj, deepRequired_obj]
    refine congrArg Ty.obj (List.map_congr_left ?_)
    intro f hf
    cases f with
    | mk n o r ty =>
      have hrec : deepNonNullable ty = deepRequired ty :=
        deepNonNullable_eq_deepRequired ty
      simp [Field.name, Field.opt, Field.ro, Field.ty, hrec]
  | .union ms =>
    rw [deepNonNullable_union, deepRequired_union]
    refine congrArg mkUnion (List.map_congr_left ?_)
    intro m hm
    exact deepNonNullable_eq_deepRequired m
  | .arr e =>
    have hrec : deepNonNullable e = deepRequired e :=
      deepNonNullable_eq_deepRequired e
    simp [deepNonNullable, deepRequired, hrec]
  | .fn d c => simp [deepNonNullable, deepRequired]
  | .str => simp [deepNonNullable, deepRequired]
  | .num => simp [deepNonNullable, deepRequired]
  | .boolT => simp [deepNonNullable, deepRequired]
  | .nullT => simp [deepNonNullable, deepRequired]
  | .undefT => simp [deepNonNullable, deepRequired]
  | .voidT => simp [deepNonNullable, deepRequired]
  | .neverT => simp [deepNonNullable, deepRequired]
  | .errT => simp [deepNonNullable, deepRequired]
  | .numLit n => simp [deepNonNullable, deepRequired]
  | .strLit s => simp [deepNonNullable, deepRequired]
termination_by sizeOf t
decreasing_by
  all_goals simp_wf
  · exact sizeOf_ty_lt_of_field_mem hf
  · exact sizeOf_lt_of_union_mem hm

/-- C1: for every type `T` — in particular every object type — every
property of `DeepReadonly<T>` is marked `readonly` at every nesting depth:
`allRO` checks the `readonly` flag of every field of every object type
reachable in the result, through nested objects, unions and arrays, so a
value of the resulting type permits only read access to all of its
properties, transitively. -/
theorem c1_deepReadonly_readonly_at_every_depth (t : Ty) :
    allRO (deepReadonly t) = true := by
  exact deepReadonly_allRO t

/-- C5 counterexample: the claim asserts that `DeepNonNullable` does not
remove an explicitly written `undefined` from any property's value type,
but the `-?` modifier strips `undefined` from a formerly optional
property: `DeepNonNullable<{ a?: string | undefined }>` is
`{ a: string }`, not `{ a: string | undefined }`. -/
theorem c5_counterexample_optional_undefined_stripped :
    deepNonNullable (Ty.obj [Field.mk "a" true false (Ty.union [Ty.str, Ty.undefT])])
      = Ty.obj [Field.mk "a" false false Ty.str] ∧
    Ty.obj [Field.mk "a" false false Ty.str]
      ≠ Ty.obj [Field.mk "a" false false (Ty.union [Ty.str, Ty.undefT])] := by
  constructor
  · simp [deepNonNullable_obj, deepNonNullable_union, deepNonNullable,
      stripOptUndef, removeUndef, membersOf, mkUnion, Ty.isNever, Ty.isUndef,
      Field.name, Field.opt, Field.ro, Field.ty]
  · simp

/-- C5 (amended): `DeepNonNullable<T>` is identical to `DeepRequired<T>`
for every type `T` — both are `{ [P in keyof T]-?: Rec<T[P]> }` — and the
transform removes the optional modifier of each property, stripping
`undefined` (even explicitly written) from the value type of formerly
optional properties, while `null` is never removed and an
already-required property keeps its value type unchanged:
`DeepNonNullable<{ a?: string | null | undefined }> = { a: string | null }`
and `DeepNonNullable<{ a: string | undefined }> = { a: string | undefined }`. -/
theorem c5_amended_identical_and_strips_optional_undefined :
    (∀ t : Ty, deepNonNullable t = deepRequired t) ∧
    deepNonNullable (Ty.obj [Field.mk "a" true false
        (Ty.union [Ty.str, Ty.nullT, Ty.undefT])])
      = Ty.obj [Field.mk "a" false false (Ty.union [Ty.str, Ty.nullT])] ∧
    deepNonNullable (Ty.obj [Field.mk "a" false false
        (Ty.union [Ty.str, Ty.undefT])])
      = Ty.obj [Field.mk "a" false false (Ty.union [Ty.str, Ty.undefT])] := by
  refine ⟨deepNonNullable_eq_deepRequired, ?_, ?_⟩ <;>
    simp [deepNonNullable_obj, deepNonNullable_union, deepNonNullable,
      stripOptUndef, removeUndef, membersOf, mkUnion, Ty.isNever, Ty.isUndef,
      Field.name, Field.opt, Field.ro, Field.ty]

/-- C8: each of the deep mapped transforms DeepPartial, DeepReadonly,
DeepRequired, DeepMutable, DeepNullable, DeepMaybe and DeepVoidable
preserves the key set of an object type exactly: the transform maps over
the property keys of the input and neither adds nor removes any key. -/
theorem c8_deep_transforms_preserve_keys (fs : List Field) :
    keysOf (deepPartialT (.obj fs)) = keysOf (.obj fs) ∧
    keysOf (deepReadonly (.obj fs)) = keysOf (.obj fs) ∧
    keysOf (deepRequired (.obj fs)) = keysOf (.obj fs) ∧
    keysOf (deepMutable (.obj fs)) = keysOf (.obj fs) ∧
    keysOf (deepNullable (.obj fs)) = keysOf (.obj fs) ∧
    keysOf (deepMaybe (.obj fs)) = keysOf (.obj fs) ∧
    keysOf (deepVoidable (.obj fs)) = keysOf (.obj fs) := by
  refine ⟨?_, ?_, ?_, ?_, ?_, ?_, ?_⟩
  · rw [deepPartialT_obj]
    simp only [keysOf, List.map_map]
    exact List.map_congr_left (fun f _ => by cases f; simp [Field.name, Function.comp])
  · rw [deepReadonly_obj]
    simp only [keysOf, List.map_map]
    exact List.map_congr_left (fun f _ => by cases f; simp [Field.name, Function.comp])
  · rw [deepRequired_obj]
    simp only [keysOf, List.map_map]
    exact List.map_congr_left (fun f _ => by cases f; simp [Field.name, Function.comp])
  · rw [deepMutable_obj]
    simp only [keysOf, List.map_map]
    exact List.map_congr_left (fun f _ => by cases f; simp [Field.name, Function.comp])
  · rw [deepNullable_obj]
    simp only [keysOf, List.map_map]
    exact List.map_congr_left (fun f _ => by cases f; simp [Field.name, Function.comp])
  · rw [deepMaybe_obj]
    simp only [keysOf, List.map_map]
    exact List.map_congr_left (fun f _ => by cases f; simp [Field.name, Function.comp])
  · rw [deepVoidable_obj]
    simp only [keysOf, List.map_map]
    exact List.map_congr_left (fun f _ => by cases f; simp [Field.name, Function.comp])

/-!
## `NonNullable`

`type NonNullable<T> = T extends null | undefined ? never : T;`
The checked type is the naked parameter `T`, so the conditional
distributes over the members of `T`.
-/

/-- Is the type assignable to `null | undefined`?  Among the types of the
model these are `null`, `undefined` and `never` (`never` is assignable to
everything; it can never occur as a union member here). -/
def extendsNullOrUndef : Ty → Bool
  | .nullT => true
  | .undefT => true
  | .neverT => true
  | _ => false

/-- Is the type literally `null` or `undefined`? -/
def isNullOrUndef : Ty → Bool
  | .nullT => true
  | .undefT => true
  | _ => false

/-- `NonNullable<T> = T extends null | undefined ? never : T`: the
distributive conditional maps each member of `T` to `never` or to itself,
and the resulting union drops the `never`s. -/
def nonNullable (T : Ty) : Ty :=
  mkUnion ((membersOf T).map
    (fun m => if extendsNullOrUndef m then Ty.neverT else m))

/-- The C7 claim's description of `NonNullable`: exactly the union of
those members of `T` that are neither `null` nor `undefined`. -/
def nonNullableSpec (T : Ty) : Ty :=
  mkUnion ((membersOf T).filter (fun m => !(isNullOrUndef m)))

theorem mkUnion_congr {X Y : List Ty}
    (h : X.filter (fun m => !(Ty.isNever m)) = Y.filter (fun m => !(Ty.isNever m))) :
    mkUnion X = mkUnion Y := by
  rw [mkUnion, mkUnion, h]

theorem membersOf_not_never {T : Ty} : ∀ m ∈ membersOf T, Ty.isNever m = false := by
  cases T <;> simp [membersOf, Ty.isNever]

theorem nonNullable_filter_lemma (L : List Ty)
    (h : ∀ m ∈ L, Ty.isNever m = false) :
    ((L.map (fun m => if extendsNullOrUndef m then Ty.neverT else m)).filter
        (fun m => !(Ty.isNever m)))
      = ((L.filter (fun m => !(isNullOrUndef m))).filter (fun m => !(Ty.isNever m))) := by
  induction L with
  | nil => rfl
  | cons m rest ih =>
    have hm : Ty.isNever m = false := h m (List.mem_cons_self m rest)
    have hrest : ∀ x ∈ rest, Ty.isNever x = false :=
      fun x hx => h x (List.mem_cons_of_mem m hx)
    have ih2 := ih hrest
    cases m <;> simp_all [extendsNullOrUndef, isNullOrUndef, Ty.isNever]

theorem nonNullable_eq_spec (T : Ty) : nonNullable T = nonNullableSpec T := by
  exact mkUnion_congr (nonNullable_filter_lemma (membersOf T) membersOf_not_never)

/-- C7: `NonNullable<T>` equals exactly the union of the members of `T`
that are neither `null` nor `undefined` — the conditional distributes over
the members, maps `null` and `undefined` to `never` (which the union
drops) and keeps every other member unchanged — and, on the spec's
example, `NonNullable<string | null | undefined> = string`. -/
theorem c7_nonNullable_keeps_exactly_non_nullish_members :
    (∀ T : Ty, nonNullable T = nonNullableSpec T) ∧
    nonNullable (Ty.union [Ty.str, Ty.nullT, Ty.undefT]) = Ty.str := by
  constructor
  · exact nonNullable_eq_spec
  · rfl

/-!
## `UnionToArray`

```
type UnionToArray<U> =
  U extends any ? (u: U) => void : never extends (u: infer I) => void ? I[] : never;
```

Conditional types are right-associative, so this parses as
`U extends any ? ((u: U) => void)
             : (never extends (u: infer I) => void ? I[] : never)`,
and the checked type is the naked parameter `U`, so the conditional
distributes over the members of `U`.
-/

/-- Every type is assignable to `any`. -/
def tyExtendsAny (_ : Ty) : Bool := true

/-- `never` is assignable to every type. -/
def neverExtends (_ : Ty) : Bool := true

/-- The branch of `UnionToArray` applied to one union member, with the
parse above.  In the (unreachable) false branch, `never` is assignable to
the function type, and inferring `I` from `never` produces no candidate,
so the branch would be an array type; it is transcribed as such. -/
def unionToArrayAtom (Ui : Ty) : Ty :=
  if tyExtendsAny Ui then Ty.fn Ui Ty.voidT
  else if neverExtends (Ty.fn Ty.neverT Ty.voidT) then Ty.arr Ty.neverT
  else Ty.neverT

/-- `UnionToArray<U>`, distributing over the members of `U`. -/
def unionToArray (U : Ty) : Ty :=
  mkUnion ((membersOf U).map unionToArrayAtom)

theorem no_array_members_aux (L : List Ty)
    (h : ∀ m ∈ L, ∃ a b, m = Ty.fn a b) :
    (membersOf (mkUnion L)).all (fun m => !(Ty.isArr m)) = true := by
  rw [mkUnion]
  split
  · rfl
  · rename_i m heq
    have hm : m ∈ L :=
      List.mem_of_mem_filter (by rw [heq]; exact List.mem_singleton.2 rfl)
    obtain ⟨a, b, rfl⟩ := h m hm
    rfl
  · rw [List.all_eq_true]
    intro x hx
    simp only [membersOf] at hx
    have hx1 : x ∈ L := List.mem_of_mem_filter (List.mem_of_mem_filter hx)
    obtain ⟨a, b, rfl⟩ := h x hx1
    rfl

/-- C4: `UnionToArray<U>` evaluates to the union, over the members `Ui`
of `U`, of the function types `(u: Ui) => void`, and none of the members
of the result is ever an array type: the `I[]` branch of the conditional
is unreachable because `U extends any` always holds. -/
theorem c4_unionToArray_is_fn_union_never_array :
    (∀ U : Ty, unionToArray U
        = mkUnion ((membersOf U).map (fun V => Ty.fn V Ty.voidT))) ∧
    (∀ U : Ty, (membersOf (unionToArray U)).all (fun m => !(Ty.isArr m)) = true) := by
  constructor
  · intro U
    rfl
  · intro U
    apply no_array_members_aux
    intro m hm
    obtain ⟨V, hV, rfl⟩ := List.mem_map.1 hm
    exact ⟨V, Ty.voidT, rfl⟩

/-!
## `DeepMerge`

```
type DeepMerge<T, U> = {
  [K in keyof T | keyof U]: K extends keyof U
    ? U[K]
    : K extends keyof T
    ? T[K] extends object
      ? U[K] extends object
        ? DeepMerge<T[K], U[K]>
        : T[K]
      : T[K]
    : never;
};
```

Note that in the `K extends keyof U`-false branch the source still writes
`U[K]`; the checker reports an error on that indexed access and continues
with the error type, which behaves like `any`, and a conditional whose
checked type is the error/`any` type resolves to the union of its two
branches.  The mapped type's key is `keyof T | keyof U`, which is not
`keyof T` alone, so the mapped type is not homomorphic: it drops the
optional and readonly modifiers of the originals.
-/

/-- The indexed access `T[K]` for a concrete key `K`: the named field's
type on an object type; a missing key, or indexing a type without
string-keyed properties, is an error, and the checker continues with the
error type. -/
def idx (T : Ty) (K : String) : Ty :=
  match T with
  | .obj fs =>
    match fs.find? (fun f => f.name == K) with
    | some f => f.ty
    | none => .errT
  | _ => .errT

theorem sizeOf_idx_lt {T : Ty} {K : String} (h : K ∈ keysOf T) :
    sizeOf (idx T K) < sizeOf T := by
  match T with
  | .obj fs =>
    have hex : ∃ f, f ∈ fs ∧ (Field.name f == K) = true := by
      obtain ⟨f, hf, hname⟩ := List.mem_map.1 h
      exact ⟨f, hf, by simp [hname]⟩
    have hsome := List.find?_isSome.2 hex
    obtain ⟨g, hg⟩ := Option.isSome_iff_exists.1 hsome
    have hmem := List.mem_of_find?_eq_some hg
    have hlt := sizeOf_ty_lt_of_field_mem hmem
    rw [idx, hg]
    simp
    omega

/-- Is the type assignable to `object` (non-primitive)?  Object literals,
arrays and functions are; a union is when all its members are. -/
def isObjectLike (t : Ty) : Bool :=
  match t with
  | .obj _ => true
  | .arr _ => true
  | .fn _ _ => true
  | .union ms => ms.attach.all (fun x => isObjectLike x.1)
  | _ => false
termination_by sizeOf t
decreasing_by
  simp_wf
  exact sizeOf_lt_of_union_mem x.2

/-- The (non-distributive) conditional `S extends object ? A : B`; when
`S` is the checker's error/`any` type the conditional resolves to the
union of both branches. -/
def condObj (S A B : Ty) : Ty :=
  match S with
  | .errT => union2 A B
  | S => if isObjectLike S then A else B

/-- The key list of `keyof T | keyof U`: the keys of `T` followed by the
keys of `U` not already present. -/
def keyUnion (a b : List String) : List String :=
  a ++ b.filter (fun k => !(a.contains k))

set_option linter.unusedVariables false in
mutual

/-- `DeepMerge<T, U>` itself: one field per key of `keyof T | keyof U`,
with no optional or readonly modifier (the mapped type is not
homomorphic), whose value type is `deepMergeVal`. -/
def deepMerge (T U : Ty) : Ty :=
  .obj ((keyUnion (keysOf T) (keysOf U)).map
    (fun k => Field.mk k false false (deepMergeVal T U k)))
termination_by (sizeOf T, 1)

/-- The value of the `DeepMerge` mapped type at one key, transcribing the
nested conditional from the source. -/
def deepMergeVal (T U : Ty) (K : String) : Ty :=
  if K ∈ keysOf U then idx U K
  else if h : K ∈ keysOf T then
    condObj (idx T K)
      (condObj (idx U K) (deepMerge (idx T K) (idx U K)) (idx T K))
      (idx T K)
  else .neverT
termination_by (sizeOf T, 0)
decreasing_by
  left
  exact sizeOf_idx_lt h

end

theorem find?_map_name (ks : List String) (g : String → Field) (K : String)
    (hg : ∀ k, Field.name (g k) = k) (hK : K ∈ ks) :
    (ks.map g).find? (fun f => Field.name f == K) = some (g K) := by
  induction ks with
  | nil => cases hK
  | cons a rest ih =>
    rw [List.map_cons]
    by_cases ha : a = K
    · subst ha
      rw [List.find?_cons_of_pos]
      simp [hg]
    · rw [List.find?_cons_of_neg]
      · exact ih ((List.mem_cons.1 hK).resolve_left (fun hx => ha hx.symm))
      · simp [hg, ha]

/-- C3: for every pair of types `T`, `U` and every key `K` that is in
both `keyof T` and `keyof U`, `DeepMerge<T, U>[K] = U[K]`: the first
branch of the conditional replaces `T`'s property wholesale, so the
recursive branch is never used for overlapping keys, and nested
properties of `T[K]` missing from `U[K]` do not appear in the result. -/
theorem c3_deepMerge_overlapping_key_is_U (T U : Ty) (K : String)
    (hT : K ∈ keysOf T) (hU : K ∈ keysOf U) :
    idx (deepMerge T U) K = idx U K := by
  have hk : K ∈ keyUnion (keysOf T) (keysOf U) := List.mem_append_left _ hT
  rw [deepMerge, idx,
    find?_map_name (keyUnion (keysOf T) (keysOf U))
      (fun k => Field.mk k false false (deepMergeVal T U k)) K (fun k => rfl) hk]
  simp only [Field.ty]
  rw [deepMergeVal]
  simp [hU]

/-- Witness for C3 at `T = { a: string; b: boolean }`,
`U = { a: number }`, `K = "a"`: the merged property is `U`'s. -/
theorem c3_witness :
    ("a" ∈ keysOf (Ty.obj [Field.mk "a" false false Ty.str,
                           Field.mk "b" false false Ty.boolT])) ∧
    ("a" ∈ keysOf (Ty.obj [Field.mk "a" false false Ty.num])) ∧
    idx (deepMerge (Ty.obj [Field.mk "a" false false Ty.str,
                            Field.mk "b" false false Ty.boolT])
                   (Ty.obj [Field.mk "a" false false Ty.num])) "a"
      = idx (Ty.obj [Field.mk "a" false false Ty.num]) "a" := by
  refine ⟨?_, ?_, ?_⟩
  · simp [keysOf, Field.name]
  · simp [keysOf, Field.name]
  · exact c3_deepMerge_overlapping_key_is_U _ _ "a"
      (by simp [keysOf, Field.name]) (by simp [keysOf, Field.name])

/-!
## `NumbersRange` and its helpers

```
type _NumbersFrom0ToNRec<Nr extends number, Counter extends unknown[],
                         Accumulator extends number> =
  Counter['length'] extends Nr
    ? Accumulator
    : _NumbersFrom0ToNRec<Nr, [unknown, ...Counter], Accumulator | Counter['length']>;

type _NumbersFrom0ToN<From extends number> = From extends From
  ? number extends From ? number
    : From extends 0 ? never
    : _NumbersFrom0ToNRec<From, [], 0>
  : never;

type NumbersRange<From extends number, To extends number> =
  Exclude<_NumbersFrom0ToN<To>, _NumbersFrom0ToN<From>>;
```

`Counter` only ever contributes its length, so it is represented by a
natural number; `Accumulator` is a union of numeric literal types,
represented by its list of values (the union deduplicates, which
`accInsert` mirrors).  The checker evaluates a recursive alias under an
instantiation-depth limit, modelled by an explicit `fuel` budget: a `none`
result means the instantiation never finishes for any budget (the checker
reports "type instantiation is excessively deep").
-/

/-- `Counter['length'] extends Nr` for a concrete length: true when `Nr`
is `number` or the same numeric literal. -/
def lenExtends (len : Nat) (Nr : Ty) : Bool :=
  match Nr with
  | .num => true
  | .numLit k => (len : Int) == k
  | _ => false

/-- `Accumulator | Counter['length']`: adding a member to a union of
numeric literals (a union keeps no duplicates). -/
def accInsert (acc : List Int) (len : Int) : List Int :=
  if acc.contains len then acc else acc ++ [len]

/-- `_NumbersFrom0ToNRec<Nr, Counter, Accumulator>`, with recursion
budget `fuel`. -/
def numbersFrom0ToNRec (fuel : Nat) (Nr : Ty) (len : Nat)
    (acc : List Int) : Option (List Int) :=
  match fuel with
  | 0 => none
  | fuel + 1 =>
    if lenExtends len Nr then some acc
    else numbersFrom0ToNRec fuel Nr (len + 1) (accInsert acc (len : Int))

/-- The accumulator as a type: the union of its numeric literals. -/
def intsToTy (acc : List Int) : Ty := mkUnion (acc.map Ty.numLit)

/-- `From extends 0` for an atomic member. -/
def extendsZero : Ty → Bool
  | .numLit k => k == 0
  | .neverT => true
  | _ => false

/-- One distributed member of `_NumbersFrom0ToN` (`From extends From`
distributes over the members of `From`): `number extends From` holds only
for `number` itself; then `From extends 0`; otherwise the recursive
helper is instantiated with `Counter = []` and `Accumulator = 0`. -/
def numbersFrom0ToNAtom (fuel : Nat) (m : Ty) : Option Ty :=
  match m with
  | .num => some .num
  | m =>
    if extendsZero m then some .neverT
    else (numbersFrom0ToNRec fuel m 0 [0]).map intsToTy

/-- Evaluate the distributed member instantiations in order; `none` as
soon as one of them never finishes. -/
def mapAtoms (fuel : Nat) : List Ty → Option (List Ty)
  | [] => some []
  | m :: ms =>
    match numbersFrom0ToNAtom fuel m, mapAtoms fuel ms with
    | some r, some rs => some (r :: rs)
    | _, _ => none

/-- `_NumbersFrom0ToN<From>`: distribute over the members of `From` and
union the member results (if any member's instantiation never finishes,
the whole alias never finishes). -/
def numbersFrom0ToN (fuel : Nat) (F : Ty) : Option Ty :=
  (mapAtoms fuel (membersOf F)).map
    (fun rs => mkUnion (rs.flatMap membersOf))

/-- `a extends B` for the numeric atoms produced by `_NumbersFrom0ToN`:
a membership test in the members of `B`. -/
def numAtomExtends (a B : Ty) : Bool :=
  match a with
  | .num => (membersOf B).any (fun b => match b with
      | .num => true
      | _ => false)
  | .numLit k => (membersOf B).any (fun b => match b with
      | .num => true
      | .numLit j => j == k
      | _ => false)
  | _ => false

/-- The builtin `Exclude<A, B> = A extends B ? never : A`, distributing
over the members of `A` (specialised to the numeric atoms involved in
`NumbersRange`). -/
def tsExclude (A B : Ty) : Ty :=
  mkUnion ((membersOf A).filter (fun a => !(numAtomExtends a B)))

/-- `NumbersRange<From, To> = Exclude<_NumbersFrom0ToN<To>, _NumbersFrom0ToN<From>>`. -/
def numbersRange (fuel : Nat) (F T : Ty) : Option Ty := do
  let nTo ← numbersFrom0ToN fuel T
  let nFrom ← numbersFrom0ToN fuel F
  pure (tsExclude nTo nFrom)

/-- The toplevel instantiation `_NumbersFrom0ToNRec<Nr, [], 0>` finishes
within some recursion budget. -/
def RecTerminatesOn (Nr : Ty) : Prop :=
  ∃ fuel acc, numbersFrom0ToNRec fuel Nr 0 [0] = some acc

/-- `NumbersRange<From, To>` finishes within some recursion budget. -/
def RangeTerminatesOn (F T : Ty) : Prop :=
  ∃ fuel r, numbersRange fuel F T = some r

theorem rec_neg_none (fuel : Nat) : ∀ (len : Nat) (acc : List Int),
    numbersFrom0ToNRec fuel (.numLit (-1)) len acc = none := by
  induction fuel with
  | zero => intro len acc; rfl
  | succ f ih =>
    intro len acc
    rw [numbersFrom0ToNRec]
    have hfalse : lenExtends len (.numLit (-1)) = false := by
      simp [lenExtends]
    rw [hfalse]
    simp only [Bool.false_eq_true, if_false]
    exact ih (len + 1) (accInsert acc (len : Int))

theorem rec_terminates_nat : ∀ (k len : Nat) (acc : List Int),
    ∃ r, numbersFrom0ToNRec (k + 1) (.numLit ((len + k : Nat) : Int)) len acc
          = some r := by
  intro k
  induction k with
  | zero =>
    intro len acc
    refine ⟨acc, ?_⟩
    rw [numbersFrom0ToNRec]
    have htrue : lenExtends len (.numLit ((len + 0 : Nat) : Int)) = true := by
      simp [lenExtends]
    rw [htrue]
    simp
  | succ k ih =>
    intro len acc
    rw [numbersFrom0ToNRec]
    have hfalse : lenExtends len (.numLit ((len + (k + 1) : Nat) : Int)) = false := by
      simp [lenExtends]
      omega
    rw [hfalse]
    simp only [Bool.false_eq_true, if_false]
    have hcast : ((len + (k + 1) : Nat) : Int) = (((len + 1) + k : Nat) : Int) := by
      congr 1
      omega
    rw [hcast]
    exact ih (len + 1) (accInsert acc (len : Int))

theorem rec_mono : ∀ (fuel fuel' : Nat), fuel ≤ fuel' →
    ∀ (Nr : Ty) (len : Nat) (acc r : List Int),
    numbersFrom0ToNRec fuel Nr len acc = some r →
    numbersFrom0ToNRec fuel' Nr len acc = some r := by
  intro fuel
  induction fuel with
  | zero =>
    intro fuel' hle Nr len acc r h
    exact absurd h (by simp [numbersFrom0ToNRec])
  | succ f ih =>
    intro fuel' hle Nr len acc r h
    obtain ⟨f2, rfl⟩ : ∃ f2, fuel' = f2 + 1 := ⟨fuel' - 1, by omega⟩
    rw [numbersFrom0ToNRec] at h ⊢
    by_cases hc : lenExtends len Nr = true
    · rw [hc] at h ⊢
      exact h
    · rw [Bool.not_eq_true] at hc
      rw [hc] at h ⊢
      simp only [Bool.false_eq_true, if_false] at h ⊢
      exact ih f2 (by omega) Nr (len + 1) (accInsert acc (len : Int)) r h

theorem atom_mono {fuel fuel' : Nat} (hle : fuel ≤ fuel') {m : Ty} {r : Ty}
    (h : numbersFrom0ToNAtom fuel m = some r) :
    numbersFrom0ToNAtom fuel' m = some r := by
  cases m <;> simp only [numbersFrom0ToNAtom] at h ⊢ <;> try exact h
  all_goals {
    split at h <;> rename_i hz
    · rw [if_pos hz]
      exact h
    · rw [if_neg hz]
      obtain ⟨acc, hacc, hr⟩ := Option.map_eq_some'.1 h
      rw [rec_mono fuel fuel' hle _ 0 [0] acc hacc]
      simp [hr]
  }

theorem mapAtoms_mono {fuel fuel' : Nat} (hle : fuel ≤ fuel') :
    ∀ {ms : List Ty} {rs : List Ty},
    mapAtoms fuel ms = some rs → mapAtoms fuel' ms = some rs := by
  intro ms
  induction ms with
  | nil =>
    intro rs h
    exact h
  | cons a as ih =>
    intro rs h
    rw [mapAtoms] at h ⊢
    cases ha : numbersFrom0ToNAtom fuel a with
    | none => rw [ha] at h; exact absurd h (by simp)
    | some r =>
      rw [ha] at h
      cases has : mapAtoms fuel as with
      | none => rw [has] at h; exact absurd h (by simp)
      | some rs' =>
        rw [has] at h
        rw [atom_mono hle ha, ih has]
        exact h

theorem numbersFrom0ToN_mono {fuel fuel' : Nat} (hle : fuel ≤ fuel')
    {F : Ty} {r : Ty} (h : numbersFrom0ToN fuel F = some r) :
    numbersFrom0ToN fuel' F = some r := by
  rw [numbersFrom0ToN] at h ⊢
  obtain ⟨rs, hrs, hr⟩ := Option.map_eq_some'.1 h
  rw [mapAtoms_mono hle hrs]
  simp [hr]

theorem numbersRange_mono {fuel fuel' : Nat} (hle : fuel ≤ fuel')
    {F T : Ty} {r : Ty} (h : numbersRange fuel F T = some r) :
    numbersRange fuel' F T = some r := by
  rw [numbersRange] at h ⊢
  cases hTo : numbersFrom0ToN fuel T with
  | none => rw [hTo] at h; exact absurd h (by simp)
  | some nTo =>
    rw [hTo] at h
    cases hFrom : numbersFrom0ToN fuel F with
    | none => rw [hFrom] at h; exact absurd h (by simp)
    | some nFrom =>
      rw [hFrom] at h
      rw [numbersFrom0ToN_mono hle hTo, numbersFrom0ToN_mono hle hFrom]
      exact h

theorem numbersFrom0ToN_nat_some (j fuel : Nat) (hle : j + 1 ≤ fuel) :
    ∃ r, numbersFrom0ToN fuel (.numLit (j : Int)) = some r := by
  by_cases hj : j = 0
  · subst hj
    exact ⟨Ty.neverT, rfl⟩
  · obtain ⟨acc, hacc⟩ := rec_terminates_nat j 0 [0]
    have hacc2 : numbersFrom0ToNRec fuel (.numLit (j : Int)) 0 [0] = some acc := by
      apply rec_mono (j + 1) fuel hle
      simpa using hacc
    have hz : extendsZero (.numLit (j : Int)) = false := by
      simp [extendsZero]
      exact hj
    have hatom : numbersFrom0ToNAtom fuel (.numLit (j : Int))
        = some (intsToTy acc) := by
      simp only [numbersFrom0ToNAtom]
      rw [hz]
      simp only [Bool.false_eq_true, if_false]
      rw [hacc2]
      rfl
    refine ⟨mkUnion (membersOf (intsToTy acc)), ?_⟩
    rw [numbersFrom0ToN]
    simp [membersOf, mapAtoms, hatom]

theorem numbersRange_nat_some (m n : Nat) :
    ∃ r, numbersRange (m + n + 1) (.numLit (m : Int)) (.numLit (n : Int))
          = some r := by
  obtain ⟨rTo, hTo⟩ := numbersFrom0ToN_nat_some n (m + n + 1) (by omega)
  obtain ⟨rFrom, hFrom⟩ := numbersFrom0ToN_nat_some m (m + n + 1) (by omega)
  refine ⟨tsExclude rTo rFrom, ?_⟩
  rw [numbersRange, hTo, hFrom]
  rfl

/-- C2 counterexample: `-1` is a numeric literal type, so it satisfies
the constraint `Nr extends number`, yet the instantiation
`_NumbersFrom0ToNRec<-1, [], 0>` never finishes for any recursion budget
(the counter length, a natural number, never extends `-1`), and therefore
neither does `NumbersRange<0, -1>`. -/
theorem c2_counterexample_neg_one_diverges :
    ¬ RecTerminatesOn (.numLit (-1)) ∧
    ¬ RangeTerminatesOn (.numLit 0) (.numLit (-1)) := by
  constructor
  · rintro ⟨fuel, acc, h⟩
    rw [rec_neg_none] at h
    exact Option.noConfusion h
  · rintro ⟨fuel, r, h⟩
    have hatom : numbersFrom0ToNAtom fuel (.numLit (-1)) = none := by
      simp only [numbersFrom0ToNAtom]
      have hz : extendsZero (.numLit (-1)) = false := by simp [extendsZero]
      rw [hz]
      simp only [Bool.false_eq_true, if_false]
      rw [rec_neg_none]
      rfl
    have hnone : numbersFrom0ToN fuel (.numLit (-1)) = none := by
      rw [numbersFrom0ToN]
      simp [membersOf, mapAtoms, hatom]
    rw [numbersRange, hnone] at h
    simp at h

/-- C2 (amended): the recursion in `_NumbersFrom0ToNRec` does terminate
for every `Nr` that is a non-negative integer literal, and
`NumbersRange<From, To>` evaluates to an output type for all non-negative
integer literal arguments. -/
theorem c2_amended_terminates_on_naturals :
    (∀ n : Nat, RecTerminatesOn (.numLit (n : Int))) ∧
    (∀ m n : Nat, RangeTerminatesOn (.numLit (m : Int)) (.numLit (n : Int))) := by
  constructor
  · intro n
    obtain ⟨acc, hacc⟩ := rec_terminates_nat n 0 [0]
    exact ⟨n + 1, acc, by simpa using hacc⟩
  · intro m n
    obtain ⟨r, hr⟩ := numbersRange_nat_some m n
    exact ⟨m + n + 1, r, hr⟩

/-- C10: every alias evaluation is pure and deterministic.  All embedded
aliases are functions of their type arguments alone; for the one alias
family evaluated under a recursion budget (`NumbersRange` and its
helpers), the result is also independent of the budget: any two
successful evaluations at the same type arguments return the same type. -/
theorem c10_numbersRange_deterministic (f1 f2 : Nat) (F T : Ty) (r1 r2 : Ty)
    (h1 : numbersRange f1 F T = some r1) (h2 : numbersRange f2 F T = some r2) :
    r1 = r2 := by
  cases le_total f1 f2 with
  | inl hle =>
    have h3 := numbersRange_mono hle h1
    rw [h2] at h3
    exact (Option.some.inj h3).symm
  | inr hle =>
    have h3 := numbersRange_mono hle h2
    rw [h1] at h3
    exact Option.some.inj h3

/-- Witness for C10: `NumbersRange<1, 3>` evaluates to `1 | 2` under two
different recursion budgets, and the theorem identifies the results. -/
theorem c10_witness :
    numbersRange 4 (.numLit 1) (.numLit 3)
        = some (Ty.union [Ty.numLit 1, Ty.numLit 2]) ∧
    numbersRange 9 (.numLit 1) (.numLit 3)
        = some (Ty.union [Ty.numLit 1, Ty.numLit 2]) ∧
    (Ty.union [Ty.numLit 1, Ty.numLit 2] : Ty)
        = Ty.union [Ty.numLit 1, Ty.numLit 2] :=
  ⟨rfl, rfl,
    c10_numbersRange_deterministic 4 9 (.numLit 1) (.numLit 3)
      (Ty.union [Ty.numLit 1, Ty.numLit 2]) (Ty.union [Ty.numLit 1, Ty.numLit 2])
      rfl rfl⟩

/-!
## The declaration surface of module `types-echo`

The tables below transcribe the declaration list of the module from
src/unnamed/part_001 (src/index.d.ts declares a subset of the same
aliases with identical bodies): every declaration's name, its kind, which
other library-defined type names appear in its definition, and a depth
witnessing the acyclicity of the (non-self) reference graph.
-/

inductive DeclKind : Type where
  | typeAlias : DeclKind
  | interfaceDecl : DeclKind
  | classDecl : DeclKind
  | enumDecl : DeclKind
  | varDecl : DeclKind
  | funcDecl : DeclKind

deriving instance DecidableEq for DeclKind

/-- Does a declaration of this kind compile to executable JavaScript?
Type aliases and interfaces are erased by the compiler; classes, enums,
variable and function declarations emit runtime code. -/
def emitsRuntimeCode : DeclKind → Bool
  | .classDecl => true
  | .enumDecl => true
  | .varDecl => true
  | .funcDecl => true
  | _ => false

/-- All type names declared in module `types-echo`
(src/unnamed/part_001), in source order.  `UnionToIntersection` is
declared twice with the same body and is listed once. -/
def libraryTypeNames : List String :=
  ["Maybe", "NonNullable", "Nullable", "Undefinedable", "NullableOrUndefined",
   "Voidable", "ReadonlyRecord", "ModifyField", "Fn", "VoidFn", "PromiseFn",
   "MaybePromise", "MaybePromiseFn", "DeepPartial", "DeepReadonly",
   "DeepRequired", "DeepMutable", "DeepWritable", "DeepNonNullable",
   "DeepNullable", "DeepMaybe", "DeepVoidable", "NumbersRange",
   "_NumbersFrom0ToNRec", "_NumbersFrom0ToN", "DeepNonNullableOrUndefined",
   "UnionToIntersection", "KeysUnion", "ConditionalPick", "UnionToArray",
   "DeepOptionalNullable", "ExcludeFromUnion", "FirstElement", "LastElement",
   "FunctionProperties", "ValueOf", "DeepRequiredNonNullable", "TupleToUnion",
   "OptionalKeys", "RequiredKeys", "NonFunctionProperties",
   "OptionalProperties", "RequiredProperties", "DeepMerge", "Invert",
   "PartialWithUndefined", "MapValues", "MapKeys", "UnionToObject"]

/-- The names declared with `export type` — all of `libraryTypeNames`
except the two underscore-prefixed helpers, which are declared with a
bare `type`. -/
def exportedTypeNames : List String :=
  ["Maybe", "NonNullable", "Nullable", "Undefinedable", "NullableOrUndefined",
   "Voidable", "ReadonlyRecord", "ModifyField", "Fn", "VoidFn", "PromiseFn",
   "MaybePromise", "MaybePromiseFn", "DeepPartial", "DeepReadonly",
   "DeepRequired", "DeepMutable", "DeepWritable", "DeepNonNullable",
   "DeepNullable", "DeepMaybe", "DeepVoidable", "NumbersRange",
   "DeepNonNullableOrUndefined",
   "UnionToIntersection", "KeysUnion", "ConditionalPick", "UnionToArray",
   "DeepOptionalNullable", "ExcludeFromUnion", "FirstElement", "LastElement",
   "FunctionProperties", "ValueOf", "DeepRequiredNonNullable", "TupleToUnion",
   "OptionalKeys", "RequiredKeys", "NonFunctionProperties",
   "OptionalProperties", "RequiredProperties", "DeepMerge", "Invert",
   "PartialWithUndefined", "MapValues", "MapKeys", "UnionToObject"]

/-- Every declaration of module `types-echo` with its kind: the module
body consists exclusively of type alias declarations (no class, enum,
variable, function or interface declarations appear in the source). -/
def moduleDecls : List (String × DeclKind) :=
  libraryTypeNames.map (fun n => (n, DeclKind.typeAlias))

/-- The other library-defined type names appearing in each alias's
definition, transcribed from the source (the alias's own name excluded:
the `Deep*` aliases and `_NumbersFrom0ToNRec` also refer to themselves;
built-in utilities such as `Omit`, `Record`, `Pick`, `Exclude`,
`Promise` and `Function` are not defined by this library). -/
def libRefs (n : String) : List String :=
  if n = "VoidFn" then ["Fn"]
  else if n = "MaybePromiseFn" then ["MaybePromise"]
  else if n = "NumbersRange" then ["_NumbersFrom0ToN"]
  else if n = "_NumbersFrom0ToN" then ["_NumbersFrom0ToNRec"]
  else if n = "DeepNonNullableOrUndefined" then ["NonNullable"]
  else if n = "DeepRequiredNonNullable" then ["NonNullable"]
  else if n = "OptionalProperties" then ["OptionalKeys"]
  else if n = "RequiredProperties" then ["RequiredKeys"]
  else []

/-- A depth for each alias, strictly decreasing along `libRefs`: it
witnesses that the non-self reference graph is acyclic. -/
def refDepth (n : String) : Nat :=
  if n = "NumbersRange" then 2
  else if n ∈ ["VoidFn", "MaybePromiseFn", "_NumbersFrom0ToN",
               "DeepNonNullableOrUndefined", "DeepRequiredNonNullable",
               "OptionalProperties", "RequiredProperties"] then 1
  else 0

/-- C6 counterexample: `VoidFn` is exported and its definition
`type VoidFn<T = any> = Fn<T, void>` refers to `Fn`, another type defined
by the library, so not every exported alias is independent of every other
library definition. -/
theorem c6_counterexample_voidFn_refs_fn :
    "VoidFn" ∈ exportedTypeNames ∧ "Fn" ∈ libraryTypeNames ∧
    libRefs "VoidFn" = ["Fn"] := by
  refine ⟨by decide, by decide, rfl⟩

/-- C6 (amended): not every exported alias is independent — `VoidFn`,
`MaybePromiseFn`, `NumbersRange`, `DeepNonNullableOrUndefined`,
`DeepRequiredNonNullable`, `OptionalProperties` and `RequiredProperties`
each refer to another library definition — but every referenced name is
itself defined in the library and the non-self reference graph is acyclic
(`refDepth` strictly decreases along every reference), so each alias
still evaluates in isolation after finitely many expansions of library
definitions. -/
theorem c6_amended_reference_graph :
    (libraryTypeNames.all (fun a =>
      (libRefs a).all (fun b =>
        libraryTypeNames.contains b && decide (refDepth b < refDepth a)))) = true := by
  decide

/-- C9: every declaration of the module is a type alias, and a type alias
is erased at compilation — it emits no JavaScript — so no use of a
library alias can produce a runtime error: the only possible failure is a
compile-time type-checker diagnostic. -/
theorem c9_aliases_emit_no_runtime_code (d : String × DeclKind)
    (h : d ∈ moduleDecls) : emitsRuntimeCode d.2 = false := by
  obtain ⟨n, hn, rfl⟩ := List.mem_map.1 h
  rfl

/-- Witness for C9 at the `Invert` declaration. -/
theorem c9_witness :
    (("Invert", DeclKind.typeAlias) ∈ moduleDecls) ∧
    emitsRuntimeCode ("Invert", DeclKind.typeAlias).2 = false :=
  ⟨by decide, c9_aliases_emit_no_runtime_code ("Invert", DeclKind.typeAlias) (by decide)⟩

end TE
